import Mathlib

/-!
Verification of `tfe_cleanup` (src/main.rs).

A shallow embedding of the core of the `tfe_cleanup` tool: the inactivity
filter (`filter_old_inactive_accounts`), the report writer (`create_csv`),
the confirmation gate (`should_perform_cleanup`) and the cleanup executor
(`perform_terraform_cleanup`), together with models of the external
collaborators the source calls into (serde_json `Value` indexing, chrono
RFC3339 parsing, the csv crate's writer/reader).

Conventions:
* instants are `Int` nanoseconds since the Unix epoch (chrono `DateTime`
  compares absolute instants across offsets, which this representation gives);
* the wall clock read `Utc::now()` is passed explicitly as a `now` parameter;
* I/O effects of the cleanup loop (stdout log lines, spawned commands) are
  reified as returned lists; the spawned `terraform workspace delete` command
  is a function argument `exec` from the target name to its outcome.
-/

/-! ## JSON values (model of serde_json::Value) -/

/-- Model of `serde_json::Value`.  Numbers are collapsed to `Int`; no claim
touches numeric fields, so float subtleties are irrelevant here. -/
inductive Value where
  | null
  | bool (b : Bool)
  | num (n : Int)
  | str (s : String)
  | arr (items : List Value)
  | obj (fields : List (String × Value))

/-- Model of `value[key]` (serde_json `Index<&str>` on an immutable value):
the first field with that key, `Null` for a missing key or a non-object. -/
def Value.getKey : Value → String → Value
  | .obj fields, k =>
      match fields.find? (fun f => f.1 == k) with
      | some f => f.2
      | none => .null
  | _, _ => .null

/-- Model of `Value::as_str`. -/
def Value.asStr : Value → Option String
  | .str s => some s
  | _ => none

/-- Model of `Value::as_array`. -/
def Value.asArr : Value → Option (List Value)
  | .arr items => some items
  | _ => none

/-! ## RFC3339 timestamps (model of chrono `DateTime::parse_from_rfc3339`)

The parser accepts `YYYY-MM-DDTHH:MM:SS[.frac](Z|±HH:MM)` with `T`/`Z`
case-insensitive, validates calendar ranges (Gregorian leap years), reads at
most nine fractional digits (nanoseconds, further digits truncated), and
returns the instant as nanoseconds since the Unix epoch.  Leap seconds
(`SS = 60`) are not modelled; no account data in play uses them. -/

/-- Exactly `n` decimal digits, most significant first, accumulated into `acc`. -/
def readFixedDigits : Nat → Nat → List Char → Option (Nat × List Char)
  | 0, acc, cs => some (acc, cs)
  | Nat.succ k, acc, c :: cs =>
      if c.isDigit then readFixedDigits k (acc * 10 + (c.toNat - 48)) cs else none
  | Nat.succ _, _, [] => none

/-- Consume one expected character. -/
def expectChar (c : Char) : List Char → Option (List Char)
  | d :: cs => if d == c then some cs else none
  | [] => none

/-- Gregorian leap-year test. -/
def isLeapYear (y : Nat) : Bool :=
  (y % 4 == 0 && y % 100 != 0) || y % 400 == 0

/-- Number of leap years in `[0, y)` of the proleptic Gregorian calendar
(year 0 is a leap year). -/
def leapYearsBefore : Nat → Nat
  | 0 => 0
  | Nat.succ k => 1 + k / 4 - k / 100 + k / 400

/-- Length of month `m` (1-based) of year `y`. -/
def daysInMonth (y m : Nat) : Nat :=
  match m with
  | 1 => 31
  | 2 => if isLeapYear y then 29 else 28
  | 3 => 31
  | 4 => 30
  | 5 => 31
  | 6 => 30
  | 7 => 31
  | 8 => 31
  | 9 => 30
  | 10 => 31
  | 11 => 30
  | 12 => 31
  | _ => 0

/-- Days of year `y` that precede the first of month `m` (1-based). -/
def daysBeforeMonth (y m : Nat) : Nat :=
  let l := if isLeapYear y then 1 else 0
  match m with
  | 1 => 0
  | 2 => 31
  | 3 => 59 + l
  | 4 => 90 + l
  | 5 => 120 + l
  | 6 => 151 + l
  | 7 => 181 + l
  | 8 => 212 + l
  | 9 => 243 + l
  | 10 => 273 + l
  | 11 => 304 + l
  | 12 => 334 + l
  | _ => 0

/-- Day index of `y-m-d` counting from 0000-01-01 (proleptic Gregorian). -/
def dayNumber (y m d : Nat) : Nat :=
  365 * y + leapYearsBefore y + daysBeforeMonth y m + (d - 1)

/-- Day index of the Unix epoch 1970-01-01, `dayNumber 1970 1 1`. -/
def epochDayNumber : Nat := 719528

def nsPerSec : Int := 1000000000

/-- Fractional seconds: `.` followed by at least one digit; the first nine
digits are kept as nanoseconds, the rest discarded.  Absent fraction is 0. -/
def readFrac (cs : List Char) : Option (Nat × List Char) :=
  match cs with
  | '.' :: rest =>
      let digits := rest.takeWhile Char.isDigit
      if digits.isEmpty then none
      else
        let kept := digits.take 9
        let scale := 10 ^ (9 - kept.length)
        let nanos := kept.foldl (fun a c => a * 10 + (c.toNat - 48)) 0 * scale
        some (nanos, rest.drop digits.length)
  | _ => some (0, cs)

/-- Numeric offset or `Z`/`z`; result in signed seconds east of UTC. -/
def readOffset (cs : List Char) : Option (Int × List Char) :=
  match cs with
  | 'Z' :: rest => some (0, rest)
  | 'z' :: rest => some (0, rest)
  | '+' :: rest =>
      match readFixedDigits 2 0 rest with
      | some (oh, rest1) =>
          match expectChar ':' rest1 with
          | some rest2 =>
              match readFixedDigits 2 0 rest2 with
              | some (om, rest3) =>
                  if oh ≤ 23 && om ≤ 59 then some ((oh * 3600 + om * 60 : Nat), rest3) else none
              | none => none
          | none => none
      | none => none
  | '-' :: rest =>
      match readFixedDigits 2 0 rest with
      | some (oh, rest1) =>
          match expectChar ':' rest1 with
          | some rest2 =>
              match readFixedDigits 2 0 rest2 with
              | some (om, rest3) =>
                  if oh ≤ 23 && om ≤ 59 then some (-((oh * 3600 + om * 60 : Nat) : Int), rest3)
                  else none
              | none => none
          | none => none
      | none => none
  | _ => none

/-- Model of chrono `DateTime::parse_from_rfc3339`, returning the parsed
instant as nanoseconds since the Unix epoch (`none` on any syntax or range
error, as chrono returns `Err`). -/
def parse_from_rfc3339 (input : String) : Option Int := do
  let cs := input.toList
  let (y, cs) ← readFixedDigits 4 0 cs
  let cs ← expectChar '-' cs
  let (mo, cs) ← readFixedDigits 2 0 cs
  let cs ← expectChar '-' cs
  let (d, cs) ← readFixedDigits 2 0 cs
  let cs ← match cs with
    | c :: rest => if c == 'T' || c == 't' then some rest else none
    | [] => none
  let (h, cs) ← readFixedDigits 2 0 cs
  let cs ← expectChar ':' cs
  let (mi, cs) ← readFixedDigits 2 0 cs
  let cs ← expectChar ':' cs
  let (sec, cs) ← readFixedDigits 2 0 cs
  let (frac, cs) ← readFrac cs
  let (offset, cs) ← readOffset cs
  if 1 ≤ mo && mo ≤ 12 && 1 ≤ d && d ≤ daysInMonth y mo && h ≤ 23 && mi ≤ 59 && sec ≤ 59
      && cs.isEmpty then
    some (((dayNumber y mo d : Int) - (epochDayNumber : Int)) * 86400 * nsPerSec
      + ((h * 3600 + mi * 60 + sec : Nat) : Int) * nsPerSec
      + (frac : Int)
      - offset * nsPerSec)
  else
    none

/-! ## Inactivity filter (`filter_old_inactive_accounts`, main.rs lines 54-70) -/

/-- `Duration::days(90)` in nanoseconds. -/
def ninetyDaysNs : Int := 90 * 86400 * nsPerSec

/-- The string the source extracts:
`account["attributes"]["last-activity-at"].as_str().unwrap_or("")`. -/
def lastActivityStr (account : Value) : String :=
  (((account.getKey "attributes").getKey "last-activity-at").asStr).getD ""

/-- The loop body's test: the timestamp parses and is strictly earlier than
`now - 90 days` (`last_activity_date < ninety_days_ago`). -/
def isOldInactive (now : Int) (account : Value) : Bool :=
  match parse_from_rfc3339 (lastActivityStr account) with
  | some lastActivityDate => decide (lastActivityDate < now - ninetyDaysNs)
  | none => false

/-- The `for` loop of `filter_old_inactive_accounts`: push each account
passing the test, in input order. -/
def filterLoop (now : Int) : List Value → List Value
  | [] => []
  | account :: rest =>
      match parse_from_rfc3339 (lastActivityStr account) with
      | some lastActivityDate =>
          if lastActivityDate < now - ninetyDaysNs then
            account :: filterLoop now rest
          else
            filterLoop now rest
      | none => filterLoop now rest

/-- Model of `filter_old_inactive_accounts` (main.rs lines 54-70).  The
source reads `Utc::now()` to form the cutoff; that clock read is the explicit
parameter `now` here.  A response whose `data` key is not an array yields the
empty vector (the `if let` does not fire). -/
def filter_old_inactive_accounts (accounts_response : Value) (now : Int) : List Value :=
  match (accounts_response.getKey "data").asArr with
  | some accounts => filterLoop now accounts
  | none => []

/-! ## Report writer (`create_csv`, main.rs lines 72-85)

The csv crate is an external collaborator; its writer is modelled at the
record level: the file produced by `create_csv` is the ordered list of
records passed to `write_record`.  A faithful character-level serializer
(`encodeFile`) and parser (`parseFile`) for the crate's default dialect
(comma delimiter, `"` quoting with doubling, `\n` terminators, quoting only
when needed) let the round-trip claims be settled on actual text. -/

/-- The string the source writes for the name column:
`account["attributes"]["name"].as_str().unwrap_or("")`. -/
def nameStr (account : Value) : String :=
  (((account.getKey "attributes").getKey "name").asStr).getD ""

/-- Model of `create_csv` (main.rs lines 72-85): the header record
`["Name", "Last Activity"]` followed by one record per account, fields taken
verbatim via `as_str().unwrap_or("")`.  `Writer::from_path` truncates any
existing file, so the result is the whole file content, as records. -/
def create_csv (accounts : List Value) : List (List String) :=
  ["Name", "Last Activity"] ::
    accounts.map (fun account => [nameStr account, lastActivityStr account])

/-- A character needing quoting under the csv crate's default
`QuoteStyle::Necessary`: delimiter, quote, or record terminator. -/
def isCsvSpecial (c : Char) : Bool :=
  c == ',' || c == '"' || c == '\n' || c == '\r'

/-- Quote-escape a field body: each `"` is doubled. -/
def escapeField : List Char → List Char
  | [] => []
  | '"' :: cs => '"' :: '"' :: escapeField cs
  | c :: cs => c :: escapeField cs

/-- Serialize one field: bare when no special character occurs, otherwise
quoted with doubled inner quotes. -/
def encodeField (f : String) : List Char :=
  if f.data.any isCsvSpecial then
    '"' :: escapeField f.data ++ ['"']
  else
    f.data

/-- Serialize one record: comma-separated fields and a `\n` terminator. -/
def encodeRecord : List String → List Char
  | [] => ['\n']
  | [f] => encodeField f ++ ['\n']
  | f :: fs => encodeField f ++ ',' :: encodeRecord fs

/-- Serialize a whole file (list of records). -/
def encodeFile : List (List String) → List Char
  | [] => []
  | r :: rs => encodeRecord r ++ encodeFile rs

/-- Parse the body of a quoted field, after the opening quote: `""` is a
literal quote, a lone `"` closes the field.  Returns the field's characters
and the input after the closing quote. -/
def parseQuotedBody : List Char → Option (List Char × List Char)
  | [] => none
  | c :: cs =>
      if c == '"' then
        match cs with
        | [] => some ([], [])
        | c2 :: cs2 =>
            if c2 == '"' then
              match parseQuotedBody cs2 with
              | some (f, rest) => some ('"' :: f, rest)
              | none => none
            else some ([], cs)
      else
        match parseQuotedBody cs with
        | some (f, rest) => some (c :: f, rest)
        | none => none

/-- End of a field: the delimiter, a record terminator, or end of input. -/
def isFieldTerm (c : Char) : Bool :=
  c == ',' || c == '\n' || c == '\r'

/-- Parse one field: quoted if it starts with `"`, otherwise the run of
characters up to a delimiter or terminator (inner quotes taken literally,
as the csv crate does by default). -/
def parseField (cs : List Char) : Option (List Char × List Char) :=
  match cs with
  | [] => some ([], [])
  | c :: rest =>
      if c == '"' then parseQuotedBody rest
      else some (cs.takeWhile (fun d => !isFieldTerm d), cs.dropWhile (fun d => !isFieldTerm d))

theorem parseQuotedBody_length (n : Nat) :
    ∀ cs : List Char, cs.length ≤ n →
      ∀ f rest, parseQuotedBody cs = some (f, rest) → rest.length < cs.length := by
  induction n with
  | zero =>
      intro cs hlen f rest h
      have hcs : cs = [] := List.length_eq_zero.mp (Nat.le_zero.mp hlen)
      subst hcs
      simp [parseQuotedBody] at h
  | succ n ih =>
      intro cs hlen f rest h
      rw [parseQuotedBody.eq_def] at h
      split at h
      · cases h
      · rename_i c cs0
        simp only [List.length_cons] at hlen
        split at h
        · split at h
          · cases h
            simp
          · rename_i c2 cs2
            split at h
            · revert h
              cases hrec : parseQuotedBody cs2 with
              | none => intro h; cases h
              | some pr =>
                  obtain ⟨f0, rest0⟩ := pr
                  intro h
                  cases h
                  have hle : cs2.length ≤ n := by
                    simp only [List.length_cons] at hlen
                    omega
                  have := ih cs2 hle _ _ hrec
                  simp only [List.length_cons]
                  omega
            · cases h
              simp
        · revert h
          cases hrec : parseQuotedBody cs0 with
          | none => intro h; cases h
          | some pr =>
              obtain ⟨f0, rest0⟩ := pr
              intro h
              cases h
              have := ih cs0 (by omega) _ _ hrec
              simp only [List.length_cons]
              omega

theorem parseField_length (cs f rest : List Char) (h : parseField cs = some (f, rest)) :
    rest.length ≤ cs.length := by
  rw [parseField.eq_def] at h
  split at h
  · cases h
    simp
  · rename_i c cs0
    split at h
    · have := parseQuotedBody_length cs0.length cs0 (le_refl _) f rest h
      simp only [List.length_cons]
      omega
    · cases h
      exact (List.dropWhile_suffix _).sublist.length_le

/-- Parse one record: fields separated by `,`, ended by `\n`, `\r\n`, `\r`
or end of input.  A character directly after a closing quote that is neither
delimiter nor terminator is a parse error. -/
def parseRecord (cs : List Char) : Option (List String × List Char) :=
  match hf : parseField cs with
  | none => none
  | some (f, rest) =>
      match rest with
      | [] => some ([String.mk f], [])
      | c :: rest2 =>
          if c == ',' then
            match parseRecord rest2 with
            | some (fs, rem) => some (String.mk f :: fs, rem)
            | none => none
          else if c == '\n' then some ([String.mk f], rest2)
          else if c == '\r' then
            match rest2 with
            | [] => some ([String.mk f], [])
            | c2 :: rest3 =>
                if c2 == '\n' then some ([String.mk f], rest3)
                else some ([String.mk f], rest2)
          else none
termination_by cs.length
decreasing_by
  have h2 := parseField_length cs f _ hf
  simp only [List.length_cons] at h2
  omega

theorem parseRecord_rest_le (n : Nat) :
    ∀ cs : List Char, cs.length ≤ n →
      ∀ r rest, parseRecord cs = some (r, rest) → rest.length ≤ cs.length := by
  induction n with
  | zero =>
      intro cs hlen r rest h
      have hcs : cs = [] := List.length_eq_zero.mp (Nat.le_zero.mp hlen)
      subst hcs
      rw [parseRecord.eq_def] at h
      simp [parseField] at h
      obtain ⟨-, rfl⟩ := h
      simp
  | succ n ih =>
      intro cs hlen r rest h
      rw [parseRecord.eq_def] at h
      split at h
      · cases h
      · rename_i f rest1 hf
        have hrest1 : rest1.length ≤ cs.length := parseField_length cs f rest1 hf
        split at h
        · cases h
          simp
        · rename_i hf2 c rest2
          simp only [List.length_cons] at hrest1
          split at h
          · revert h
            cases hrec : parseRecord rest2 with
            | none => intro h; cases h
            | some pr =>
                obtain ⟨fs, rem⟩ := pr
                intro h
                cases h
                have := ih rest2 (by omega) _ _ hrec
                omega
          · split at h
            · cases h
              omega
            · split at h
              · split at h
                · cases h
                  simp
                · rename_i c2 rest3
                  split at h
                  · cases h
                    simp only [List.length_cons] at hrest1
                    omega
                  · cases h
                    omega
              · cases h

theorem parseRecord_length_lt (cs : List Char) (hne : cs ≠ []) (r : List String)
    (rest : List Char) (h : parseRecord cs = some (r, rest)) : rest.length < cs.length := by
  have hpos : 0 < cs.length := by
    cases cs with
    | nil => exact absurd rfl hne
    | cons c cs2 => simp
  rw [parseRecord.eq_def] at h
  split at h
  · cases h
  · rename_i f rest1 hf
    have hrest1 : rest1.length ≤ cs.length := parseField_length cs f rest1 hf
    split at h
    · cases h
      simpa using hpos
    · rename_i hf2 c rest2
      simp only [List.length_cons] at hrest1
      split at h
      · revert h
        cases hrec : parseRecord rest2 with
        | none => intro h; cases h
        | some pr =>
            obtain ⟨fs, rem⟩ := pr
            intro h
            cases h
            have := parseRecord_rest_le rest2.length rest2 (le_refl _) _ _ hrec
            omega
      · split at h
        · cases h
          omega
        · split at h
          · split at h
            · cases h
              simpa using hpos
            · rename_i c2 rest3
              split at h
              · cases h
                simp only [List.length_cons] at hrest1
                omega
              · cases h
                omega
          · cases h

/-- Parse a whole file into records: iterate `parseRecord` to the end of
input (the csv crate's record iterator run to exhaustion). -/
def parseFile (input : List Char) : Option (List (List String)) :=
  match input with
  | [] => some []
  | c :: cs =>
      match hr : parseRecord (c :: cs) with
      | none => none
      | some (r, rest) =>
          match parseFile rest with
          | some rs => some (r :: rs)
          | none => none
termination_by input.length
decreasing_by
  exact parseRecord_length_lt _ (List.cons_ne_nil _ _) _ _ hr

theorem escapeField_quote (cs : List Char) :
    escapeField ('"' :: cs) = '"' :: '"' :: escapeField cs := by
  simp [escapeField]

theorem escapeField_other (c : Char) (hc : ¬c = '"') (cs : List Char) :
    escapeField (c :: cs) = c :: escapeField cs := by
  simp [escapeField, hc]

theorem parseQuotedBody_escape (f : List Char) :
    ∀ rest : List Char, (∀ d, rest.head? = some d → d ≠ '"') →
      parseQuotedBody (escapeField f ++ '"' :: rest) = some (f, rest) := by
  induction f with
  | nil =>
      intro rest hrest
      cases rest with
      | nil => simp [escapeField, parseQuotedBody]
      | cons d rest2 =>
          have hd : ¬(d == '"') = true := by
            simpa using hrest d rfl
          simp [escapeField, parseQuotedBody, hd]
  | cons c f ih =>
      intro rest hrest
      by_cases hc : c = '"'
      · subst hc
        rw [escapeField_quote]
        simp only [List.cons_append]
        simp [parseQuotedBody, ih rest hrest]
      · rw [escapeField_other c hc]
        simp only [List.cons_append]
        have hcb : (c == '"') = false := by simpa using hc
        have hih := ih rest hrest
        cases hef : escapeField f ++ '"' :: rest with
        | nil => exact absurd hef (by simp)
        | cons e es =>
            rw [hef] at hih
            simp [parseQuotedBody, hcb, hih]

theorem string_mk_data (s : String) : String.mk s.data = s := rfl

theorem fieldTerm_special (c : Char) (h : isFieldTerm c = true) : isCsvSpecial c = true := by
  simp only [isFieldTerm, Bool.or_eq_true, beq_iff_eq] at h
  simp only [isCsvSpecial, Bool.or_eq_true, beq_iff_eq]
  tauto

theorem fieldTerm_ne_quote (c : Char) (h : isFieldTerm c = true) : c ≠ '"' := by
  intro heq
  subst heq
  exact absurd h (by decide)

theorem takeWhile_append_stop (p : Char → Bool) :
    ∀ (xs ys : List Char), (∀ x ∈ xs, p x = true) →
      (∀ y, ys.head? = some y → p y = false) →
      (xs ++ ys).takeWhile p = xs ∧ (xs ++ ys).dropWhile p = ys := by
  intro xs
  induction xs with
  | nil =>
      intro ys hxs hys
      cases ys with
      | nil => simp
      | cons y ys2 =>
          have := hys y rfl
          simp [List.takeWhile_cons, List.dropWhile_cons, this]
  | cons x xs ih =>
      intro ys hxs hys
      have hx := hxs x (by simp)
      have hrec := ih ys (fun z hz => hxs z (by simp [hz])) hys
      simp [List.takeWhile_cons, List.dropWhile_cons, hx, hrec.1, hrec.2]

theorem parseField_encode (f : String) (d : Char) (hd : isFieldTerm d = true)
    (rest : List Char) :
    parseField (encodeField f ++ d :: rest) = some (f.data, d :: rest) := by
  rw [encodeField]
  split
  · rename_i hspec
    have hq := parseQuotedBody_escape f.data (d :: rest)
      (fun y hy => by
        have hyd : d = y := by simpa using hy
        subst hyd
        exact fieldTerm_ne_quote d hd)
    simp only [List.cons_append, List.append_assoc, List.singleton_append]
    simp [parseField, hq]
  · rename_i hspec
    cases hf : f.data with
    | nil =>
        have hdq : (d == '"') = false := by
          simpa using fieldTerm_ne_quote d hd
        have hdt : (!isFieldTerm d) = false := by simp [hd]
        simp [hf, parseField, hdq, List.takeWhile_cons, List.dropWhile_cons, hdt]
    | cons c cs =>
        have hnospec : ∀ x ∈ f.data, isCsvSpecial x = false := by
          intro x hx
          rw [List.any_eq_true] at hspec
          push_neg at hspec
          simpa using hspec x hx
        have hcq : (c == '"') = false := by
          have := hnospec c (by rw [hf]; simp)
          simp only [isCsvSpecial, Bool.or_eq_true, beq_iff_eq] at this
          simp only [beq_eq_false_iff_ne, ne_eq]
          intro hceq
          subst hceq
          simp at this
        have htw := takeWhile_append_stop (fun x => !isFieldTerm x) f.data (d :: rest)
          (fun x hx => by
            have hs := hnospec x hx
            have : isFieldTerm x = false := by
              cases hterm : isFieldTerm x with
              | false => rfl
              | true => rw [fieldTerm_special x hterm] at hs; cases hs
            simp [this])
          (fun y hy => by
            have hyd : d = y := by simpa using hy
            subst hyd
            simp [hd])
        rw [hf] at htw
        simp only [List.cons_append]
        rw [parseField.eq_def]
        simp only [hcq, Bool.false_eq_true, if_false]
        rw [← List.cons_append, htw.1, htw.2]

theorem parseRecord_encode :
    ∀ (r : List String) (rest : List Char), r ≠ [] →
      parseRecord (encodeRecord r ++ rest) = some (r, rest) := by
  intro r
  induction r with
  | nil => intro rest h; exact absurd rfl h
  | cons fd fds ih =>
      intro rest hne
      cases fds with
      | nil =>
          have hpf : parseField (encodeField fd ++ '\n' :: rest) = some (fd.data, '\n' :: rest) :=
            parseField_encode fd '\n' (by decide) rest
          rw [encodeRecord]
          simp only [List.append_assoc, List.singleton_append]
          rw [parseRecord.eq_def]
          split
          · rename_i hnone
            rw [hpf] at hnone
            cases hnone
          · rename_i f1 rest1 hsome
            rw [hpf] at hsome
            cases hsome
            simp [string_mk_data]
      | cons f2 fs2 =>
          have hpf : parseField (encodeField fd ++ ',' :: (encodeRecord (f2 :: fs2) ++ rest))
              = some (fd.data, ',' :: (encodeRecord (f2 :: fs2) ++ rest)) :=
            parseField_encode fd ',' (by decide) _
          have hrec := ih rest (List.cons_ne_nil _ _)
          rw [encodeRecord.eq_def]
          simp only [List.append_assoc, List.cons_append]
          rw [parseRecord.eq_def]
          split
          · rename_i hnone
            rw [hpf] at hnone
            cases hnone
          · rename_i f1 rest1 hsome
            rw [hpf] at hsome
            cases hsome
            simp [hrec, string_mk_data]

theorem encodeRecord_ne_nil (r : List String) : encodeRecord r ≠ [] := by
  cases r with
  | nil => simp [encodeRecord]
  | cons f fs =>
      cases fs with
      | nil => simp [encodeRecord]
      | cons f2 fs2 => simp [encodeRecord]

theorem parseFile_encode :
    ∀ recs : List (List String), (∀ r ∈ recs, r ≠ []) →
      parseFile (encodeFile recs) = some recs := by
  intro recs
  induction recs with
  | nil =>
      intro hne
      simp [encodeFile, parseFile]
  | cons r rs ih =>
      intro hne
      have hr := parseRecord_encode r (encodeFile rs) (hne r (by simp))
      have hihr := ih (fun x hx => hne x (by simp [hx]))
      rw [encodeFile]
      rw [parseFile.eq_def]
      split
      · rename_i heq
        exact absurd (List.append_eq_nil.mp heq).1 (encodeRecord_ne_nil r)
      · rename_i c cs heq
        split
        · rename_i hnone
          rw [← heq, hr] at hnone
          cases hnone
        · rename_i r1 rest1 hsome
          rw [← heq, hr] at hsome
          cases hsome
          simp [hihr]

/-! ## Confirmation gate (`should_perform_cleanup`, main.rs lines 87-91)

`read_line` is modelled on a stdin whose pending contents are a `String`:
it returns everything up to and including the first newline, or the whole
remainder at end of stream (so an empty stream — immediate EOF — yields `""`,
exactly as `BufRead::read_line` reads zero bytes there and leaves the buffer
empty, an `Ok` outcome, not an error). -/

/-- One `read_line` call against pending input `stdin`. -/
def read_line (stdin : String) : String :=
  let cs := stdin.toList
  match cs.dropWhile (fun c => !(c == '\n')) with
  | '\n' :: _ => String.mk (cs.takeWhile (fun c => !(c == '\n')) ++ ['\n'])
  | _ => String.mk (cs.takeWhile (fun c => !(c == '\n')))

/-- Model of Rust `str::trim`: drop whitespace from both ends.  (Rust trims
per Unicode White_Space; `Char.isWhitespace` covers the ASCII subset, which
is all a line of terminal input here contains.) -/
def rustTrim (s : String) : String :=
  String.mk (((s.data.dropWhile Char.isWhitespace).reverse.dropWhile
    Char.isWhitespace).reverse)

/-- Model of Rust `str::to_lowercase` (ASCII range; Rust also lowers
non-ASCII letters, which never match `"y"` anyway). -/
def rustToLowercase (s : String) : String :=
  String.mk (s.data.map Char.toLower)

/-- Model of `should_perform_cleanup`: read one line, then
`user_input.trim().to_lowercase() == "y"`. -/
def should_perform_cleanup (stdin : String) : Bool :=
  let user_input := read_line stdin
  rustToLowercase (rustTrim user_input) == "y"

/-! ## Cleanup executor (`perform_terraform_cleanup`, main.rs lines 93-115)

The csv reader's record iterator yields one `Result<StringRecord>` per item;
that stream is the `records` argument (`Except.error` for a row that fails
CSV parsing).  The spawned `terraform workspace delete <name>` process is
the argument `exec`, mapping the target name to its captured outcome.  The
`println!` calls and the spawned commands are reified in the result. -/

/-- Outcome of one spawned external command (`status.success()` plus the
captured stderr bytes, lossily decoded). -/
structure CmdOutput where
  success : Bool
  stderr : String

/-- One stdout log line of the cleanup loop. -/
inductive LogEntry where
  | deleting (name : String)
  | deleted (name : String)
  | failed (name : String) (err : String)
deriving DecidableEq

/-- Everything observable about one cleanup run: the log lines printed, the
names passed to `terraform workspace delete` in order, and the returned
`Result`. -/
structure CleanupRun where
  log : List LogEntry
  invoked : List String
  result : Except String Unit

/-- Model of `perform_terraform_cleanup`'s row loop.  Each iteration takes
the next `Result` from the reader: a parse error propagates immediately via
`?` (nothing after it runs); otherwise the row's field 0 is the target
(`&record[0]`; CSV records always have at least one field), the command is
spawned, and success or failure (with captured stderr) is logged before
moving on. -/
def perform_terraform_cleanup (records : List (Except String (List String)))
    (exec : String → CmdOutput) : CleanupRun :=
  match records with
  | [] => ⟨[], [], Except.ok ()⟩
  | Except.error e :: _ => ⟨[], [], Except.error e⟩
  | Except.ok record :: rest =>
      let account_name := record.headD ""
      let output := exec account_name
      let entry :=
        if output.success then LogEntry.deleted account_name
        else LogEntry.failed account_name output.stderr
      let r := perform_terraform_cleanup rest exec
      ⟨LogEntry.deleting account_name :: entry :: r.log,
        account_name :: r.invoked,
        r.result⟩

/-- Model of `Reader::from_path` + `.records()` over a file already split
into records: the csv crate's default configuration has `has_headers`
enabled, so the first record of the file is consumed as the header and the
record iterator does not yield it. -/
def readerRecords (file : List (List String)) : List (Except String (List String)) :=
  match file with
  | [] => []
  | _header :: rows => rows.map Except.ok

/-- `perform_terraform_cleanup` as run against a report file. -/
def perform_terraform_cleanup_file (file : List (List String))
    (exec : String → CmdOutput) : CleanupRun :=
  perform_terraform_cleanup (readerRecords file) exec

/-! ## The run's ambient state

`filter_old_inactive_accounts` executes inside a process whose observable
inputs are captured here; the filter reads only the fetched response and the
clock (`Utc::now()`). -/

/-- The process state at the moment the filter runs. -/
structure WorldState where
  accountsResponse : Value
  clockNow : Int
  tfeToken : String
  stdinPending : String

/-- The filter as invoked during a run: its whole access to `WorldState`. -/
def filterInRun (w : WorldState) : List Value :=
  filter_old_inactive_accounts w.accountsResponse w.clockNow

/-! ## Supporting lemmas about the filter and the cleanup loop -/

theorem filterLoop_eq_filter (now : Int) (l : List Value) :
    filterLoop now l = l.filter (isOldInactive now) := by
  induction l with
  | nil => rfl
  | cons a l ih =>
      rw [filterLoop.eq_def]
      cases hp : parse_from_rfc3339 (lastActivityStr a) with
      | none => simp [List.filter_cons, isOldInactive, hp, ih]
      | some t =>
          by_cases ht : t < now - ninetyDaysNs
          · simp [List.filter_cons, isOldInactive, hp, ht, ih]
          · simp [List.filter_cons, isOldInactive, hp, ht, ih]

theorem isOldInactive_iff (now : Int) (a : Value) :
    isOldInactive now a = true ↔
      ∃ t : Int, parse_from_rfc3339 (lastActivityStr a) = some t ∧ t < now - ninetyDaysNs := by
  unfold isOldInactive
  cases hp : parse_from_rfc3339 (lastActivityStr a) with
  | none => simp
  | some t => simp

theorem filter_of_data (resp : Value) (now : Int) (accounts : List Value)
    (hdata : (resp.getKey "data").asArr = some accounts) :
    filter_old_inactive_accounts resp now = accounts.filter (isOldInactive now) := by
  unfold filter_old_inactive_accounts
  rw [hdata]
  exact filterLoop_eq_filter now accounts

/-- The target name taken from a CSV row: field 0 (`&record[0]`). -/
def rowName (r : List String) : String := r.headD ""

/-- The two log lines one successfully parsed row produces. -/
def rowLog (exec : String → CmdOutput) (r : List String) : List LogEntry :=
  let n := rowName r
  let o := exec n
  [LogEntry.deleting n,
    if o.success then LogEntry.deleted n else LogEntry.failed n o.stderr]

theorem cleanup_ok (rows : List (List String)) (exec : String → CmdOutput) :
    perform_terraform_cleanup (rows.map Except.ok) exec
      = ⟨rows.flatMap (rowLog exec), rows.map rowName, Except.ok ()⟩ := by
  induction rows with
  | nil => rfl
  | cons r rows ih =>
      simp [perform_terraform_cleanup, ih, rowLog, rowName]

theorem cleanup_error (pre : List (List String)) (e : String)
    (rest : List (Except String (List String))) (exec : String → CmdOutput) :
    perform_terraform_cleanup (pre.map Except.ok ++ Except.error e :: rest) exec
      = ⟨pre.flatMap (rowLog exec), pre.map rowName, Except.error e⟩ := by
  induction pre with
  | nil => rfl
  | cons r pre ih =>
      simp [perform_terraform_cleanup, ih, rowLog, rowName]

/-! ## Concrete sample data for witnesses -/

/-- An account last active 2020-01-01, inactive for any 2024 clock. -/
def sampleOld : Value :=
  Value.obj [("attributes", Value.obj
    [("name", Value.str "old-account"),
     ("last-activity-at", Value.str "2020-01-01T00:00:00Z")])]

/-- An account last active 2023-12-01, within 90 days of the sample clock. -/
def sampleNew : Value :=
  Value.obj [("attributes", Value.obj
    [("name", Value.str "new-account"),
     ("last-activity-at", Value.str "2023-12-01T00:00:00Z")])]

def sampleAccounts : List Value := [sampleOld, sampleNew]

/-- A listing response shaped like the endpoint's `{"data": [...]}` body. -/
def sampleResp : Value := Value.obj [("data", Value.arr sampleAccounts)]

/-- `Utc::now()` fixed at 2024-01-01T00:00:00Z, in nanoseconds. -/
def sampleNow : Int := 1704067200 * 1000000000

/-! ## The claims -/

/-- C1: an account is in the filter's output iff its `last-activity-at`
string parses as an RFC3339 timestamp strictly earlier than `now - 90 days`;
accounts at or after the cutoff, or with a missing or unparseable timestamp,
are excluded, and exclusion is a total-function outcome, never an error. -/
theorem C1_filter_includes_iff :
    ∀ (resp : Value) (now : Int) (accounts : List Value),
      (resp.getKey "data").asArr = some accounts →
      ∀ account : Value,
        account ∈ filter_old_inactive_accounts resp now ↔
          (account ∈ accounts ∧
            ∃ t : Int, parse_from_rfc3339 (lastActivityStr account) = some t
              ∧ t < now - ninetyDaysNs) := by
  intro resp now accounts hdata account
  rw [filter_of_data resp now accounts hdata, List.mem_filter, isOldInactive_iff]

theorem C1_witness :
    (sampleResp.getKey "data").asArr = some sampleAccounts
    ∧ (sampleOld ∈ filter_old_inactive_accounts sampleResp sampleNow ↔
        (sampleOld ∈ sampleAccounts ∧
          ∃ t : Int, parse_from_rfc3339 (lastActivityStr sampleOld) = some t
            ∧ t < sampleNow - ninetyDaysNs)) :=
  ⟨rfl, C1_filter_includes_iff sampleResp sampleNow sampleAccounts rfl sampleOld⟩

/-- C2: over a report whose rows all parse, every row is processed in order:
the run result is `Ok`, the deletion command is invoked once per row, and a
failing command contributes a failure log line with the captured stderr while
later rows still run — shown in general, and on the `[A, B, C]` scenario with
`B` failing. -/
theorem C2_cleanup_isolates_row_failures :
    (∀ (rows : List (List String)) (exec : String → CmdOutput),
      (perform_terraform_cleanup (rows.map Except.ok) exec).result = Except.ok ()
      ∧ (perform_terraform_cleanup (rows.map Except.ok) exec).invoked = rows.map rowName
      ∧ (perform_terraform_cleanup (rows.map Except.ok) exec).log
          = rows.flatMap (rowLog exec))
    ∧ ((perform_terraform_cleanup ([["A", "1"], ["B", "2"], ["C", "3"]].map Except.ok)
          (fun n => if n = "B" then CmdOutput.mk false "boom" else CmdOutput.mk true "")).log
        = [LogEntry.deleting "A", LogEntry.deleted "A",
           LogEntry.deleting "B", LogEntry.failed "B" "boom",
           LogEntry.deleting "C", LogEntry.deleted "C"]
       ∧ (perform_terraform_cleanup ([["A", "1"], ["B", "2"], ["C", "3"]].map Except.ok)
            (fun n => if n = "B" then CmdOutput.mk false "boom" else CmdOutput.mk true "")).invoked
          = ["A", "B", "C"]) := by
  constructor
  · intro rows exec
    rw [cleanup_ok rows exec]
    exact ⟨rfl, rfl, rfl⟩
  · constructor
    · decide
    · decide

/-- C3 counterexample: for a report file whose first line is the header
`Name,Last Activity`, the cleanup loop does NOT invoke the deletion command
with target `"Name"`: the csv reader's default header handling consumes the
first record, so only `ws1` is targeted. -/
theorem C3_counterexample :
    (perform_terraform_cleanup_file
        [["Name", "Last Activity"], ["ws1", "2020-01-01T00:00:00Z"]]
        (fun _ => CmdOutput.mk true "")).invoked = ["ws1"]
    ∧ "Name" ∉ (perform_terraform_cleanup_file
        [["Name", "Last Activity"], ["ws1", "2020-01-01T00:00:00Z"]]
        (fun _ => CmdOutput.mk true "")).invoked := by
  constructor
  · decide
  · decide

/-- C3 amended: the cleanup phase performs no validation of the header row's
content, but the CSV reader it uses is configured (by default) with headers
enabled, so the first record of the file — the header line included — is
consumed as a header and never treated as a deletion target: the invoked
targets are exactly the names of the remaining rows. -/
theorem C3_amended_header_skipped :
    ∀ (first : List String) (rows : List (List String)) (exec : String → CmdOutput),
      (perform_terraform_cleanup_file (first :: rows) exec).invoked = rows.map rowName := by
  intro first rows exec
  unfold perform_terraform_cleanup_file readerRecords
  rw [cleanup_ok rows exec]

/-- C4: the report file `create_csv` writes — serialized in the CSV dialect
the writer uses — re-parses to exactly the two-column header
`Name,Last Activity` followed by one row per filtered account, each field
string-identical to the account's `name` and `last-activity-at` attributes
(a missing name becomes the empty field). -/
theorem C4_report_roundtrip :
    ∀ accounts : List Value,
      parseFile (encodeFile (create_csv accounts)) = some (create_csv accounts)
      ∧ create_csv accounts
          = ["Name", "Last Activity"]
              :: accounts.map (fun a => [nameStr a, lastActivityStr a])
      ∧ (create_csv accounts).length = accounts.length + 1 := by
  intro accounts
  refine ⟨?_, rfl, by simp [create_csv]⟩
  apply parseFile_encode
  intro r hr
  simp only [create_csv, List.mem_cons, List.mem_map] at hr
  rcases hr with rfl | ⟨a, -, rfl⟩ <;> simp

/-- C5: the confirmation gate answers `true` exactly when the line read,
after trimming whitespace and lowercasing, is the single character `y`; in
particular `"y"`, `"Y"`, `" y \n"` answer true and `"n"`, empty input /
end-of-stream, `"yes"` answer false — an answer, never an error. -/
theorem C5_confirmation_gate :
    (∀ stdin : String,
      should_perform_cleanup stdin = true ↔ rustToLowercase (rustTrim (read_line stdin)) = "y")
    ∧ should_perform_cleanup "y\n" = true
    ∧ should_perform_cleanup "Y\n" = true
    ∧ should_perform_cleanup " y \n" = true
    ∧ should_perform_cleanup "n\n" = false
    ∧ should_perform_cleanup "" = false
    ∧ should_perform_cleanup "yes\n" = false := by
  refine ⟨fun stdin => ?_, by decide, by decide, by decide, by decide, by decide, by decide⟩
  simp [should_perform_cleanup]

/-- C6: the filter's output lists the qualifying accounts in input order —
it is a sublist of the input (no reordering), equals the input filtered by
the inactivity test (one element per non-excluded input element, duplicates
passed through), and its length counts exactly the qualifying elements. -/
theorem C6_filter_order_cardinality :
    ∀ (resp : Value) (now : Int) (accounts : List Value),
      (resp.getKey "data").asArr = some accounts →
      List.Sublist (filter_old_inactive_accounts resp now) accounts
      ∧ filter_old_inactive_accounts resp now = accounts.filter (isOldInactive now)
      ∧ (filter_old_inactive_accounts resp now).length
          = accounts.countP (isOldInactive now) := by
  intro resp now accounts hdata
  rw [filter_of_data resp now accounts hdata]
  exact ⟨List.filter_sublist accounts, rfl, (List.countP_eq_length_filter _ _).symm⟩

theorem C6_witness :
    (sampleResp.getKey "data").asArr = some sampleAccounts
    ∧ List.Sublist (filter_old_inactive_accounts sampleResp sampleNow) sampleAccounts :=
  ⟨rfl, (C6_filter_order_cardinality sampleResp sampleNow sampleAccounts rfl).1⟩

/-- C7: the filter's output is a function of exactly the fetched response
and the clock reading from which the cutoff is derived: two run states that
agree on those two — whatever their credential, pending stdin, or any other
component — produce identical filter output. -/
theorem C7_filter_deterministic :
    ∀ w1 w2 : WorldState,
      w1.accountsResponse = w2.accountsResponse →
      w1.clockNow = w2.clockNow →
      filterInRun w1 = filterInRun w2 := by
  intro w1 w2 h1 h2
  unfold filterInRun
  rw [h1, h2]

theorem C7_witness :
    filterInRun ⟨sampleResp, sampleNow, "token-one", "y\n"⟩
      = filterInRun ⟨sampleResp, sampleNow, "token-two", "n\n"⟩ :=
  C7_filter_deterministic _ _ rfl rfl

/-- C8: a row that fails CSV parsing makes the cleanup loop return that
error on the spot (`let record = result?`): everything before it is
processed, nothing after it is — the run's log, invocations and result do
not depend on what follows the bad row. -/
theorem C8_parse_error_aborts :
    ∀ (pre : List (List String)) (e : String)
      (rest rest2 : List (Except String (List String))) (exec : String → CmdOutput),
      (perform_terraform_cleanup (pre.map Except.ok ++ Except.error e :: rest) exec).result
        = Except.error e
      ∧ (perform_terraform_cleanup (pre.map Except.ok ++ Except.error e :: rest) exec).invoked
        = pre.map rowName
      ∧ perform_terraform_cleanup (pre.map Except.ok ++ Except.error e :: rest) exec
        = perform_terraform_cleanup (pre.map Except.ok ++ Except.error e :: rest2) exec := by
  intro pre e rest rest2 exec
  rw [cleanup_error pre e rest exec, cleanup_error pre e rest2 exec]
  exact ⟨rfl, rfl, rfl⟩

/-- C9: the filter copies qualifying records whole: every element of its
output is literally one of the input array's elements — no field is
modified, projected away, or added. -/
theorem C9_filter_verbatim :
    ∀ (resp : Value) (now : Int) (accounts : List Value),
      (resp.getKey "data").asArr = some accounts →
      ∀ v ∈ filter_old_inactive_accounts resp now, v ∈ accounts := by
  intro resp now accounts hdata v hv
  rw [filter_of_data resp now accounts hdata] at hv
  exact (List.mem_filter.mp hv).1

theorem C9_witness :
    (sampleResp.getKey "data").asArr = some sampleAccounts
    ∧ ∀ v ∈ filter_old_inactive_accounts sampleResp sampleNow, v ∈ sampleAccounts :=
  ⟨rfl, C9_filter_verbatim sampleResp sampleNow sampleAccounts rfl⟩

/-- C10: a data row whose name field is the empty string is not skipped and
raises no error: the external deletion command is still invoked with the
empty string as target, and the run still returns `Ok`. -/
theorem C10_empty_name_still_invoked :
    ∀ (pre post : List (List String)) (tail : List String) (exec : String → CmdOutput),
      (perform_terraform_cleanup ((pre ++ ("" :: tail) :: post).map Except.ok) exec).invoked
        = (pre ++ ("" :: tail) :: post).map rowName
      ∧ "" ∈ (perform_terraform_cleanup ((pre ++ ("" :: tail) :: post).map Except.ok)
          exec).invoked
      ∧ (perform_terraform_cleanup ((pre ++ ("" :: tail) :: post).map Except.ok) exec).result
        = Except.ok () := by
  intro pre post tail exec
  rw [cleanup_ok (pre ++ ("" :: tail) :: post) exec]
  refine ⟨rfl, ?_, rfl⟩
  simp only [List.map_append, List.map_cons]
  exact List.mem_append_right _ (List.mem_cons_self _ _)
